import Mathlib

/-!
Verification of the barcode-scanner core (scanner source file).

Strings are modelled as `List Char`.  Regex character classes follow the
JavaScript semantics on the character ranges the scanner can see
(ASCII plus NBSP for `\s`).
-/

namespace Scanner

/-- JS `\d` character class. -/
def isDigitChar (c : Char) : Bool := c.isDigit

/-- JS `\s` character class (ASCII whitespace plus NBSP; the further
Unicode space code points never occur in decoded barcode text). -/
def isWSChar (c : Char) : Bool :=
  c = ' ' || c = '\t' || c = '\n' || c = '\x0b' || c = '\x0c' || c = '\r' || c = ' '

/-- `[0-9A-Z]` under the `i` flag: ASCII digits and letters. -/
def isAlnumChar (c : Char) : Bool := c.isDigit || c.isAlpha

/-- JS `\w` character class. -/
def isWordChar (c : Char) : Bool := c.isDigit || c.isAlpha || c = '_'

/-- Case-insensitive comparison against an uppercase ASCII letter. -/
def ciIs (c target : Char) : Bool := c = target || c = target.toLower

/-! ### The carrier pattern table (`trackingPatterns`), as full-string matchers. -/

/-- `/^1Z[0-9A-Z]{16}$/i` -/
def upsFull : List Char → Bool
  | '1' :: z :: rest => (z = 'Z' || z = 'z') && rest.length = 16 && rest.all isAlnumChar
  | _ => false

/-- `/^(\d{12}|\d{15})$/` -/
def fedexFull (s : List Char) : Bool :=
  s.all isDigitChar && (s.length = 12 || s.length = 15)

/-- Consume exactly `n` digits, returning the rest of the input. -/
def dropDigits : Nat → List Char → Option (List Char)
  | 0, s => some s
  | _ + 1, [] => none
  | n + 1, c :: s => if isDigitChar c then dropDigits n s else none

/-- Consume at most one whitespace character (`\s?`; greedy, and
deterministic here because whatever follows must be a digit). -/
def dropOptWS : List Char → List Char
  | [] => []
  | c :: s => if isWSChar c then s else c :: s

/-- Grouped alternative of the USPS pattern:
`\d{4}\s?\d{4}\s?\d{4}\s?\d{4}\s?\d{4}\s?\d{4}\s?\d{2}` anchored. -/
def uspsGroupedFull (s : List Char) : Bool :=
  (do
    let r1 ← dropDigits 4 s
    let r2 ← dropDigits 4 (dropOptWS r1)
    let r3 ← dropDigits 4 (dropOptWS r2)
    let r4 ← dropDigits 4 (dropOptWS r3)
    let r5 ← dropDigits 4 (dropOptWS r4)
    let r6 ← dropDigits 4 (dropOptWS r5)
    let r7 ← dropDigits 2 (dropOptWS r6)
    if r7 = [] then some () else none).isSome

/-- `/^(\d{20,22}|\d{4}\s?…\s?\d{2})$/` -/
def uspsFull (s : List Char) : Bool :=
  (s.all isDigitChar && (20 ≤ s.length && s.length ≤ 22)) || uspsGroupedFull s

/-- `/^\d{10}$/` -/
def dhlFull (s : List Char) : Bool := s.all isDigitChar && s.length = 10

/-- `TBA\d{12}` alternative of the Amazon pattern (case-insensitive). -/
def tbaFull : List Char → Bool
  | t :: b :: a :: rest =>
      ciIs t 'T' && ciIs b 'B' && ciIs a 'A' && rest.length = 12 && rest.all isDigitChar
  | _ => false

/-- `AMZN\w{8,}` alternative of the Amazon pattern (case-insensitive). -/
def amznFull : List Char → Bool
  | a :: m :: z :: n :: rest =>
      ciIs a 'A' && ciIs m 'M' && ciIs z 'Z' && ciIs n 'N' &&
        8 ≤ rest.length && rest.all isWordChar
  | _ => false

/-- `/^(TBA\d{12}|AMZN\w{8,})$/i` -/
def amazonFull (s : List Char) : Bool := tbaFull s || amznFull s

/-- `/^C\d{14}$/` (no `i` flag in the source). -/
def ontracFull : List Char → Bool
  | 'C' :: rest => rest.length = 14 && rest.all isDigitChar
  | _ => false

inductive Carrier where
  | UPS | FedEx | USPS | DHL | Amazon | OnTrac
deriving DecidableEq, Repr

/-- Pattern of each carrier in the `trackingPatterns` table. -/
def carrierPattern : Carrier → List Char → Bool
  | .UPS => upsFull
  | .FedEx => fedexFull
  | .USPS => uspsFull
  | .DHL => dhlFull
  | .Amazon => amazonFull
  | .OnTrac => ontracFull

/-- `Object.entries(trackingPatterns)` iteration order (insertion order). -/
def carrierOrder : List Carrier :=
  [.UPS, .FedEx, .USPS, .DHL, .Amazon, .OnTrac]

/-- Position of a carrier in the priority order. -/
def priorityIdx : Carrier → Nat
  | .UPS => 0
  | .FedEx => 1
  | .USPS => 2
  | .DHL => 3
  | .Amazon => 4
  | .OnTrac => 5

structure TrackingMatch where
  carrier : Carrier
  number : List Char
deriving DecidableEq, Repr

/-- One `for (const [carrier, pattern] of Object.entries(trackingPatterns))`
loop: the first carrier whose (anchored) pattern matches the whole string
wins, and `match[0]` is the whole string. -/
def tableMatch (s : List Char) : Option TrackingMatch :=
  (carrierOrder.find? (fun c => carrierPattern c s)).map (fun c => ⟨c, s⟩)

/-- `text.replace(/\s+/g, '')`. -/
def stripWS (s : List Char) : List Char := s.filter (fun c => !isWSChar c)

/-! ### Pass 3: the spaced-USPS search, and pass 4: the long-digit-run search. -/

/-- Consume exactly `n` digits, returning them and the rest. -/
def takeDigits : Nat → List Char → Option (List Char × List Char)
  | 0, s => some ([], s)
  | _ + 1, [] => none
  | n + 1, c :: s =>
      if isDigitChar c then
        (takeDigits n s).map (fun p => (c :: p.1, p.2))
      else none

/-- Consume one-or-more whitespace characters (`\s+`; greedy, and
deterministic here because whatever follows must be a digit). -/
def takeWS1 : List Char → Option (List Char × List Char)
  | [] => none
  | c :: s =>
      if isWSChar c then
        some (match takeWS1 s with
              | some (w, r) => (c :: w, r)
              | none => ([c], s))
      else none

/-- Try `/\d{4}\s+\d{4}\s+\d{4}\s+\d{4}\s+\d{4}\s+\d{4}\s+\d{2}/` at the
start of the input, returning the matched characters and the rest. -/
def uspsSpacedParse (s : List Char) : Option (List Char × List Char) := do
  let (g1, r1) ← takeDigits 4 s
  let (w1, r1') ← takeWS1 r1
  let (g2, r2) ← takeDigits 4 r1'
  let (w2, r2') ← takeWS1 r2
  let (g3, r3) ← takeDigits 4 r2'
  let (w3, r3') ← takeWS1 r3
  let (g4, r4) ← takeDigits 4 r3'
  let (w4, r4') ← takeWS1 r4
  let (g5, r5) ← takeDigits 4 r4'
  let (w5, r5') ← takeWS1 r5
  let (g6, r6) ← takeDigits 4 r5'
  let (w6, r6') ← takeWS1 r6
  let (g7, r7) ← takeDigits 2 r6'
  some (g1 ++ w1 ++ g2 ++ w2 ++ g3 ++ w3 ++ g4 ++ w4 ++ g5 ++ w5 ++ g6 ++ w6 ++ g7, r7)

/-- Try `/\d{20,22}/` at the start of the input: greedily take up to 22
digits, succeeding when at least 20 are available. -/
def longNumParse (s : List Char) : Option (List Char × List Char) :=
  let run := s.takeWhile isDigitChar
  if 20 ≤ run.length then some (run.take 22, (run.drop 22) ++ s.dropWhile isDigitChar)
  else none

/-- Leftmost regex search: try the parser at every start position, in order. -/
def searchAt (f : List Char → Option (List Char × List Char)) :
    List Char → Option (List Char)
  | [] => (f []).map Prod.fst
  | c :: s =>
      match f (c :: s) with
      | some p => some p.1
      | none => searchAt f s

/-- `pickTracking`: the four escalating passes of the extractor. -/
def pickTracking (t : List Char) : Option TrackingMatch :=
  match tableMatch t with
  | some m => some m
  | none =>
    match tableMatch (stripWS t) with
    | some m => some m
    | none =>
      match searchAt uspsSpacedParse t with
      | some n => some ⟨.USPS, n⟩
      | none =>
        match searchAt longNumParse t with
        | some n => some ⟨.USPS, n⟩
        | none => none

/-! ### Stability gate (`maybeEmit`) and session state (`stopDecoding`). -/

def STABLE_FRAMES : Nat := 3
def COOLDOWN_MS : Nat := 900

/-- The module-level multi-scan state:
`prevCandidate`, `stableCount`, `lastTracking`, `cooldownUntil`. -/
structure ScanState where
  prevCandidate : Option (List Char)
  stableCount : Nat
  lastTracking : Option (List Char)
  cooldownUntil : Nat
deriving DecidableEq, Repr

/-- `tracking?.number || null`: the empty string is falsy in JS. -/
def extractCandidate (tracking : Option TrackingMatch) : Option (List Char) :=
  match tracking with
  | some t => if t.number = [] then none else some t.number
  | none => none

/-- `maybeEmit(tracking, rawText)`: returns whether an emission happened
together with the updated state (`now` is `Date.now()`). -/
def maybeEmit (st : ScanState) (tracking : Option TrackingMatch) (now : Nat) :
    Bool × ScanState :=
  match extractCandidate tracking with
  | none => (false, { st with prevCandidate := none, stableCount := 0 })
  | some c =>
    let st1 :=
      if some c = st.prevCandidate then { st with stableCount := st.stableCount + 1 }
      else { st with prevCandidate := some c, stableCount := 1 }
    if STABLE_FRAMES ≤ st1.stableCount ∧
        (some c ≠ st1.lastTracking ∨ st1.cooldownUntil < now) then
      (true, { st1 with lastTracking := some c, cooldownUntil := now + COOLDOWN_MS })
    else
      (false, st1)

/-- Initial values of the multi-scan state variables. -/
def initScanState : ScanState := ⟨none, 0, none, 0⟩

/-- Feed a list of (extractor result, timestamp) frames through `maybeEmit`,
recording the emission flags. -/
def runFrames (st : ScanState) : List (Option TrackingMatch × Nat) → List Bool
  | [] => []
  | (tr, now) :: rest =>
      let (e, st1) := maybeEmit st tr now
      e :: runFrames st1 rest

/-- The scanner's session-level mutable variables touched by `stopDecoding`
(stream, raf and flags are abstracted to their assignments; DOM and media
teardown are external effects). -/
structure SessionState where
  isScanning : Bool
  usingNativeDetector : Bool
  rafId : Option Nat
  hasStream : Bool
  scan : ScanState
deriving DecidableEq, Repr

/-- `stopDecoding()`: clears the native-loop flag, the animation frame, the
stream and the scanning flag.  It performs no assignment to
`prevCandidate`, `stableCount`, `lastTracking` or `cooldownUntil`. -/
def stopDecoding (s : SessionState) : SessionState :=
  { s with usingNativeDetector := false, rafId := none, hasStream := false,
           isScanning := false }

/-! ### Native-symbol selection and the file-decode orchestration. -/

/-- `(s || '').trim()`: JS trim removes leading and trailing whitespace. -/
def jsTrim (s : List Char) : List Char :=
  ((s.dropWhile isWSChar).reverse.dropWhile isWSChar).reverse

/-- `/^TBA\d+/i.test(text)`: text starts with `TBA` (case-insensitive)
followed by at least one digit. -/
def tbaTest : List Char → Bool
  | t :: b :: a :: d :: _ => ciIs t 'T' && ciIs b 'B' && ciIs a 'A' && isDigitChar d
  | _ => false

/-- Descending-length comparator passed to `Array.prototype.sort`
(`(a,b) => b.length - a.length`; a sorts before b iff the result is
negative, equal lengths keep input order by sort stability). -/
def lenDescLE (a b : List Char) : Bool := b.length ≤ a.length

/-- Symbol selection applied to a native-detector result list:
prefer the first symbol whose trimmed text matches `TBA\d+`, else take the
head of the stable descending-length sort. -/
def selectSymbol (symbols : List (List Char)) : Option (List Char) :=
  match symbols.find? (fun b => tbaTest (jsTrim b)) with
  | some b => some b
  | none => (symbols.mergeSort lenDescLE).head?

/-- `const text = (best?.rawValue || '').trim(); if (text) …`:
the selected symbol's trimmed text, `none` when empty or no symbol. -/
def selectNativeText (symbols : List (List Char)) : Option (List Char) :=
  match selectSymbol symbols with
  | some b => if jsTrim b = [] then none else some (jsTrim b)
  | none => none

/-- Backends and hint profiles of the file-decode pipeline. -/
structure Hints where
  tryHarder : Bool
  alsoInverted : Option Bool
  pureBarcode : Option Bool
deriving DecidableEq, Repr

/-- Hints of the session `codeReader` (formats list elided). -/
def baselineHints : Hints := ⟨true, none, none⟩

/-- Hints of the throwaway permissive reader. -/
def permissiveHints : Hints := ⟨true, some true, some false⟩

inductive BackendKind where
  | native | zxing
deriving DecidableEq, Repr

/-- One backend invocation in the file-decode pipeline: which backend, on
which entry of the variant list (`0` is the raw image), and for ZXing,
with which hint profile. -/
structure Attempt where
  backend : BackendKind
  variantIdx : Nat
  hints : Option Hints
deriving DecidableEq, Repr

/-- Number of entries in the `imageVariations` list of `decodeFromFile`. -/
def numVariants : Nat := 21

/-- The ZXing loop of `decodeFromFile`: for each variant in order, try the
session reader, and on failure retry once with the permissive reader;
stop at the first success.  `zx hints i` is the (opaque) result of
`decodeFromImageElement` with the given hints on variant `i`'s surface. -/
def zxingLoop (zx : Hints → Nat → Option (List Char)) :
    Nat → Nat → Option (List Char) × List Attempt
  | _, 0 => (none, [])
  | i, fuel + 1 =>
      match zx baselineHints i with
      | some r => (some r, [⟨.zxing, i, some baselineHints⟩])
      | none =>
          match zx permissiveHints i with
          | some r => (some r, [⟨.zxing, i, some baselineHints⟩,
                                ⟨.zxing, i, some permissiveHints⟩])
          | none =>
              let (res, tr) := zxingLoop zx (i + 1) fuel
              (res, ⟨.zxing, i, some baselineHints⟩ ::
                    ⟨.zxing, i, some permissiveHints⟩ :: tr)

/-- `decodeFromFile`, with backends abstracted: the native detector (when
available) runs once, on the raw image (variant `0`); only when it yields
nothing does the ZXing variant loop run.  Returns the final text and the
trace of backend invocations. -/
def decodeFromFileModel (nativeAvail : Bool)
    (native : Nat → List (List Char)) (zx : Hints → Nat → Option (List Char)) :
    Option (List Char) × List Attempt :=
  let nativeResult := if nativeAvail then selectNativeText (native 0) else none
  let nativeTrace : List Attempt := if nativeAvail then [⟨.native, 0, none⟩] else []
  match nativeResult with
  | some r => (some r, nativeTrace)
  | none =>
      let (res, tr) := zxingLoop zx 0 numVariants
      (res, nativeTrace ++ tr)

/-! ### Pixel transforms.

A surface's colour content is modelled by its channel values at each
coordinate; arithmetic on luminance is exact (ℚ), standing in for the
source's floating-point doubles. -/

/-- Luminance `0.299*R + 0.587*G + 0.114*B` of the pixel at `(x, y)`,
given the surface's channel planes. -/
def lum (R G B : Nat → Nat → ℚ) (x y : Nat) : ℚ :=
  (299 / 1000) * R x y + (587 / 1000) * G x y + (114 / 1000) * B x y

/-- The inner `rowSum` accumulator of the integral-image construction:
after column `x` it holds the sum of the first `x` luminances of row `y`. -/
def rowSumAcc (L : Nat → Nat → ℚ) (y : Nat) : Nat → ℚ
  | 0 => 0
  | x + 1 => rowSumAcc L y x + L x y

/-- The integral image: `integralImg L y x` is entry `[y * (w+1) + x]` of
the source's `integral` array (row `0` and column `0` stay at their
initial `0`). -/
def integralImg (L : Nat → Nat → ℚ) : Nat → Nat → ℚ
  | 0, _ => 0
  | _ + 1, 0 => 0
  | y + 1, x + 1 => integralImg L y (x + 1) + rowSumAcc L y (x + 1)

/-- The `D - B - C + A` range-sum lookup of `createAdaptiveThresholdCanvas`. -/
def areaSum (L : Nat → Nat → ℚ) (y1 y2 x1 x2 : Nat) : ℚ :=
  integralImg L (y2 + 1) (x2 + 1) - integralImg L y1 (x2 + 1)
    - integralImg L (y2 + 1) x1 + integralImg L y1 x1

/-- Output channel value of the adaptive threshold at pixel `(x, y)` on a
`w × h` surface with half-width `ws` and constant `C`, as computed via the
integral image. -/
def adaptivePixel (L : Nat → Nat → ℚ) (w h ws : Nat) (C : ℚ) (x y : Nat) : Nat :=
  let y1 := y - ws
  let y2 := min (h - 1) (y + ws)
  let x1 := x - ws
  let x2 := min (w - 1) (x + ws)
  let sum := areaSum L y1 y2 x1 x2
  let count : ℚ := ((y2 - y1 + 1) * (x2 - x1 + 1) : Nat)
  let mean := sum / count
  if L x y < mean - C then 0 else 255

/-- Brute-force reference: the same pixel computed with a direct windowed
sum instead of the integral image. -/
def bruteAdaptivePixel (L : Nat → Nat → ℚ) (w h ws : Nat) (C : ℚ) (x y : Nat) :
    Nat :=
  let y1 := y - ws
  let y2 := min (h - 1) (y + ws)
  let x1 := x - ws
  let x2 := min (w - 1) (x + ws)
  let sum := ∑ r ∈ Finset.Icc y1 y2, ∑ c ∈ Finset.Icc x1 x2, L c r
  let count : ℚ := ((y2 - y1 + 1) * (x2 - x1 + 1) : Nat)
  let mean := sum / count
  if L x y < mean - C then 0 else 255

/-- Per-row edge energy of `detectBarcodeBandFromCanvas`: sum over adjacent
pixel pairs of the absolute luminance difference. -/
def rowScore (L : Nat → Nat → ℚ) (w y : Nat) : ℚ :=
  ∑ x ∈ Finset.range (w - 1), |L (x + 1) y - L x y|

/-- Accumulator of the sliding-window loop: `running`, `bestSum`, `bestY`. -/
structure BandAcc where
  running : ℚ
  bestSum : ℚ
  bestY : Nat
deriving DecidableEq, Repr

/-- One iteration of the sliding-window loop at row `y` (window height
`wh`): add the row score, drop the row leaving the window, and when a full
window ends at `y`, compare with strict `>` against the best so far. -/
def bandStep (score : Nat → ℚ) (wh : Nat) (acc : BandAcc) (y : Nat) : BandAcc :=
  let r1 := acc.running + score y
  let r2 := if wh ≤ y then r1 - score (y - wh) else r1
  if wh - 1 ≤ y then
    if acc.bestSum < r2 then ⟨r2, r2, y - (wh - 1)⟩
    else ⟨r2, acc.bestSum, acc.bestY⟩
  else ⟨r2, acc.bestSum, acc.bestY⟩

/-- The whole sliding-window loop over rows `0 … h-1`, starting from
`running = 0`, `bestSum = -1`, `bestY = 0`. -/
def detectBand (score : Nat → ℚ) (h wh : Nat) : BandAcc :=
  (List.range h).foldl (bandStep score wh) ⟨0, -1, 0⟩

/-- `windowH = Math.max(8, Math.floor(srcH * bandFraction))`. -/
def bandWindowH (h : Nat) (bandFraction : ℚ) : Nat :=
  max 8 (Int.toNat ⌊(h : ℚ) * bandFraction⌋)

/-- Start row of the band chosen by `detectBarcodeBandFromCanvas`. -/
def bandBestY (L : Nat → Nat → ℚ) (w h : Nat) (bandFraction : ℚ) : Nat :=
  (detectBand (rowScore L w) h (bandWindowH h bandFraction)).bestY

/-- Aggregate energy of the window of `wh` rows starting at row `s`. -/
def windowSum (score : Nat → ℚ) (wh s : Nat) : ℚ :=
  ∑ i ∈ Finset.range wh, score (s + i)

/-- `createInvertedCanvas`'s data loop on the flat RGBA byte array:
every channel at an offset `i` with `i % 4 < 3` becomes `255 - v`,
alpha bytes are untouched.  (Canvas data length is a multiple of 4.) -/
def invertData : List Nat → List Nat
  | r :: g :: b :: a :: rest =>
      (255 - r) :: (255 - g) :: (255 - b) :: a :: invertData rest
  | l => l

end Scanner

namespace Scanner

/-! ## Theorems -/

/-- **C9.** The Invert transform, which maps each of the R, G, B channels of
every pixel to 255 minus its value and leaves alpha unchanged, is an
involution: applying it twice restores every byte of the surface exactly. -/
theorem invert_involution :
    ∀ (data : List Nat), (∀ v ∈ data, v ≤ 255) →
      invertData (invertData data) = data
  | [], _ => rfl
  | [_], _ => rfl
  | [_, _], _ => rfl
  | [_, _, _], _ => rfl
  | r :: g :: b :: a :: rest, hbound => by
      have ih := invert_involution rest (fun v hv => hbound v (by simp [hv]))
      have hr : r ≤ 255 := hbound r (by simp)
      have hg : g ≤ 255 := hbound g (by simp)
      have hb : b ≤ 255 := hbound b (by simp)
      simp only [invertData, ih, Nat.sub_sub_self hr, Nat.sub_sub_self hg,
        Nat.sub_sub_self hb]

/-- Witness for `invert_involution` on a concrete RGBA buffer. -/
theorem invert_involution_witness :
    (∀ v ∈ [10, 20, 30, 40, 250, 0, 255, 7], v ≤ 255) ∧
      invertData (invertData [10, 20, 30, 40, 250, 0, 255, 7]) =
        [10, 20, 30, 40, 250, 0, 255, 7] :=
  ⟨by decide, invert_involution [10, 20, 30, 40, 250, 0, 255, 7] (by decide)⟩

/-- **C10.** On a frame whose extractor result is null, `maybeEmit` resets
only `prevCandidate` and `stableCount`, emits nothing, and leaves
`lastTracking` (the last emitted candidate) and `cooldownUntil` unchanged. -/
theorem maybeEmit_null_frame (st : ScanState) (now : Nat) :
    maybeEmit st none now =
        (false, { st with prevCandidate := none, stableCount := 0 }) ∧
      (maybeEmit st none now).2.lastTracking = st.lastTracking ∧
      (maybeEmit st none now).2.cooldownUntil = st.cooldownUntil :=
  ⟨rfl, rfl, rfl⟩

/-- **C6 (counterexample).** `stopDecoding` does not reset the stability
state: from a session whose stability state is populated, stopping leaves
`prevCandidate`, `stableCount`, `lastTracking` and `cooldownUntil` as they
were, contradicting the claim that they are fully reset. -/
theorem stopDecoding_reset_counterexample :
    ¬ (((stopDecoding ⟨true, true, some 1, true,
            ⟨some ['A'], 3, some ['A'], 1000⟩⟩).scan.prevCandidate = none) ∧
       ((stopDecoding ⟨true, true, some 1, true,
            ⟨some ['A'], 3, some ['A'], 1000⟩⟩).scan.stableCount = 0) ∧
       ((stopDecoding ⟨true, true, some 1, true,
            ⟨some ['A'], 3, some ['A'], 1000⟩⟩).scan.lastTracking = none)) := by
  decide

/-- **C6 (amended).** Stopping a live session clears the session flags
(scanning, native loop, animation frame, stream) but leaves the stability
state untouched: `prevCandidate`, `stableCount`, `lastTracking` and
`cooldownUntil` all persist into the next session. -/
theorem stopDecoding_scan_unchanged (s : SessionState) :
    (stopDecoding s).scan = s.scan ∧
      (stopDecoding s).isScanning = false ∧
      (stopDecoding s).usingNativeDetector = false ∧
      (stopDecoding s).rafId = none ∧
      (stopDecoding s).hasStream = false :=
  ⟨rfl, rfl, rfl, rfl, rfl⟩

/-- **C2.** For a frame carrying a non-null candidate, `maybeEmit` emits iff
the updated consecutive-same-candidate streak has reached 3 and (the
candidate differs from the last emitted one or now exceeds the cooldown);
on emission `lastTracking` becomes the candidate and `cooldownUntil`
becomes `now + 900`.  Moreover on the frame sequence
`[null, "A", "A", "A", "A"]` with the last two frames closer together than
the cooldown, emission fires exactly once, at the 4th frame. -/
theorem maybeEmit_emission_rule :
    (∀ (st : ScanState) (tr : Option TrackingMatch) (now : Nat) (c : List Char),
      extractCandidate tr = some c →
        ((maybeEmit st tr now).1 = true ↔
          STABLE_FRAMES ≤
              (if some c = st.prevCandidate then st.stableCount + 1 else 1) ∧
            (some c ≠ st.lastTracking ∨ st.cooldownUntil < now)) ∧
        ((maybeEmit st tr now).1 = true →
          (maybeEmit st tr now).2.lastTracking = some c ∧
            (maybeEmit st tr now).2.cooldownUntil = now + COOLDOWN_MS)) ∧
    (∀ t1 t2 t3 t4 t5 : Nat, t5 < t4 + COOLDOWN_MS →
      runFrames initScanState
          [(none, t1), (some ⟨.UPS, ['A']⟩, t2), (some ⟨.UPS, ['A']⟩, t3),
           (some ⟨.UPS, ['A']⟩, t4), (some ⟨.UPS, ['A']⟩, t5)] =
        [false, false, false, true, false]) := by
  constructor
  · intro st tr now c hc
    obtain ⟨p, n, lt, cu⟩ := st
    simp only [maybeEmit, hc]
    split_ifs with h1 h2 h3 <;> simp_all
  · intro t1 t2 t3 t4 t5 hclose
    have hno : ¬ (t4 + COOLDOWN_MS < t5) := by omega
    have h1 : maybeEmit ⟨none, 0, none, 0⟩ none t1 = (false, ⟨none, 0, none, 0⟩) :=
      rfl
    have h2 : maybeEmit ⟨none, 0, none, 0⟩ (some ⟨.UPS, ['A']⟩) t2 =
        (false, ⟨some ['A'], 1, none, 0⟩) := by
      simp [maybeEmit, extractCandidate, STABLE_FRAMES]
    have h3 : maybeEmit ⟨some ['A'], 1, none, 0⟩ (some ⟨.UPS, ['A']⟩) t3 =
        (false, ⟨some ['A'], 2, none, 0⟩) := by
      simp [maybeEmit, extractCandidate, STABLE_FRAMES]
    have h4 : maybeEmit ⟨some ['A'], 2, none, 0⟩ (some ⟨.UPS, ['A']⟩) t4 =
        (true, ⟨some ['A'], 3, some ['A'], t4 + COOLDOWN_MS⟩) := by
      simp [maybeEmit, extractCandidate, STABLE_FRAMES]
    have h5 : maybeEmit ⟨some ['A'], 3, some ['A'], t4 + COOLDOWN_MS⟩
        (some ⟨.UPS, ['A']⟩) t5 =
        (false, ⟨some ['A'], 4, some ['A'], t4 + COOLDOWN_MS⟩) := by
      simp [maybeEmit, extractCandidate, STABLE_FRAMES, hno]
    simp [runFrames, initScanState, h1, h2, h3, h4, h5]

/-- Witness for `maybeEmit_emission_rule` at a concrete frame and concrete
times 0, 100, 200, 300, 700. -/
theorem maybeEmit_emission_rule_witness :
    (extractCandidate (some ⟨.UPS, ['A']⟩) = some ['A'] ∧
      ((maybeEmit ⟨some ['A'], 2, none, 0⟩ (some ⟨.UPS, ['A']⟩) 300).1 = true ↔
        STABLE_FRAMES ≤ (if some ['A'] =
            (⟨some ['A'], 2, none, 0⟩ : ScanState).prevCandidate then 2 + 1 else 1) ∧
          (some ['A'] ≠ (⟨some ['A'], 2, none, 0⟩ : ScanState).lastTracking ∨
            (⟨some ['A'], 2, none, 0⟩ : ScanState).cooldownUntil < 300))) ∧
    ((700 : Nat) < 300 + COOLDOWN_MS ∧
      runFrames initScanState
          [(none, 0), (some ⟨.UPS, ['A']⟩, 100), (some ⟨.UPS, ['A']⟩, 200),
           (some ⟨.UPS, ['A']⟩, 300), (some ⟨.UPS, ['A']⟩, 700)] =
        [false, false, false, true, false]) :=
  ⟨⟨by decide,
    (maybeEmit_emission_rule.1 ⟨some ['A'], 2, none, 0⟩ (some ⟨.UPS, ['A']⟩) 300
      ['A'] (by decide)).1⟩,
   ⟨by decide, maybeEmit_emission_rule.2 0 100 200 300 700 (by decide)⟩⟩

/-- The occurrences of a value in a list form a sublist of replicas. -/
theorem replicate_countEq_sublist (hh : List Char) :
    ∀ l : List (List Char),
      List.Sublist (List.replicate (l.countP (fun x => decide (x = hh))) hh) l
  | [] => List.Sublist.refl []
  | x :: l => by
      by_cases hx : x = hh
      · subst hx
        simp only [List.countP_cons, decide_eq_true_eq, if_pos rfl]
        exact (replicate_countEq_sublist x l).cons₂ x
      · simp only [List.countP_cons, decide_eq_true_eq, if_neg hx, Nat.add_zero]
        exact (replicate_countEq_sublist hh l).cons x

/-- Counting a value in its own replicas. -/
theorem countEq_replicate_self (hh : List Char) (k : Nat) :
    (List.replicate k hh).countP (fun x => decide (x = hh)) = k := by
  induction k with
  | zero => rfl
  | succ k ih => simp [List.replicate_succ, List.countP_cons, ih]

/-- `lenDescLE` is transitive. -/
theorem lenDescLE_trans : ∀ a b c : List Char,
    lenDescLE a b → lenDescLE b c → lenDescLE a c := by
  intro a b c
  simp only [lenDescLE, decide_eq_true_eq]
  omega

/-- `lenDescLE` is total. -/
theorem lenDescLE_total : ∀ a b : List Char, lenDescLE a b || lenDescLE b a := by
  intro a b
  simp only [lenDescLE, Bool.or_eq_true, decide_eq_true_eq]
  omega

/-- **C4.** When the native backend returns symbols, the orchestrator's
selection (i) picks the first symbol whose trimmed text matches `TBA\d+`
when one exists, regardless of length, (ii) otherwise picks the symbol of
maximal text length, ties resolved in favor of the first such symbol in
the returned list, and (iii) in particular prefers `TBA000000000001` over
the longer `9999999999999999999999`. -/
theorem selectSymbol_rule :
    (∀ (l₁ l₂ : List (List Char)) (b : List Char),
        (∀ x ∈ l₁, tbaTest (jsTrim x) = false) → tbaTest (jsTrim b) = true →
        selectSymbol (l₁ ++ b :: l₂) = some b) ∧
    (∀ (l₁ l₂ : List (List Char)) (m : List Char),
        (∀ x ∈ l₁ ++ m :: l₂, tbaTest (jsTrim x) = false) →
        (∀ x ∈ l₁, x.length < m.length) →
        (∀ x ∈ l₂, x.length ≤ m.length) →
        selectSymbol (l₁ ++ m :: l₂) = some m) ∧
    selectSymbol ["TBA000000000001".data, "9999999999999999999999".data] =
      some "TBA000000000001".data := by
  refine ⟨?_, ?_, by decide⟩
  · intro l₁ l₂ b hnone hb
    have hfind : (l₁ ++ b :: l₂).find? (fun s => tbaTest (jsTrim s)) = some b := by
      induction l₁ with
      | nil => simp [List.find?_cons_of_pos, hb]
      | cons x xs ih =>
          rw [List.cons_append, List.find?_cons_of_neg, ih]
          · intro y hy
            exact hnone y (by simp [hy])
          · simp [hnone x (by simp)]
    simp [selectSymbol, hfind]
  · intro l₁ l₂ m hnotba hlt hle
    have hfind : (l₁ ++ m :: l₂).find? (fun s => tbaTest (jsTrim s)) = none :=
      List.find?_eq_none.mpr (fun x hx => by simp [hnotba x hx])
    have hperm := List.mergeSort_perm (l₁ ++ m :: l₂) lenDescLE
    obtain ⟨hh, rest, hS⟩ : ∃ hh rest,
        (l₁ ++ m :: l₂).mergeSort lenDescLE = hh :: rest := by
      cases hSm : (l₁ ++ m :: l₂).mergeSort lenDescLE with
      | nil =>
          exfalso
          have hlen := hperm.length_eq
          rw [hSm] at hlen
          simp at hlen
          omega
      | cons hh rest => exact ⟨hh, rest, rfl⟩
    suffices hgoal : hh = m by
      simp [selectSymbol, hfind, hS, hgoal]
    have hpw := List.sorted_mergeSort lenDescLE_trans lenDescLE_total (l₁ ++ m :: l₂)
    have hhmem : hh ∈ l₁ ++ m :: l₂ :=
      List.mem_mergeSort.mp (by rw [hS]; exact List.mem_cons_self hh rest)
    have hmmem : m ∈ l₁ ++ m :: l₂ := by simp
    have hmax_h : ∀ x ∈ l₁ ++ m :: l₂, x.length ≤ hh.length := by
      intro x hx
      have hxS : x ∈ hh :: rest := by
        rw [← hS]
        exact List.mem_mergeSort.mpr hx
      rcases List.mem_cons.mp hxS with rfl | hxr
      · exact le_rfl
      · have hrel := (List.pairwise_cons.mp (hS ▸ hpw)).1 x hxr
        simpa [lenDescLE] using hrel
    have hmax_m : ∀ x ∈ l₁ ++ m :: l₂, x.length ≤ m.length := by
      intro x hx
      rcases List.mem_append.mp hx with h1 | h2
      · exact le_of_lt (hlt x h1)
      · rcases List.mem_cons.mp h2 with rfl | h3
        · exact le_rfl
        · exact hle x h3
    have hlen : hh.length = m.length :=
      le_antisymm (hmax_m hh hhmem) (hmax_h m hmmem)
    by_cases heq : hh = m
    · exact heq
    exfalso
    have hh_not_l₁ : hh ∉ l₁ := by
      intro hmem
      have := hlt hh hmem
      omega
    have hh_l₂ : hh ∈ l₂ := by
      rcases List.mem_append.mp hhmem with h1 | h2
      · exact absurd h1 hh_not_l₁
      · rcases List.mem_cons.mp h2 with h3 | h4
        · exact absurd h3 heq
        · exact h4
    have hmne : ¬ (m = hh) := fun he => heq he.symm
    have hkpos : 0 < l₂.countP (fun x => decide (x = hh)) :=
      List.countP_pos_iff.mpr ⟨hh, hh_l₂, by simp⟩
    have hrep := replicate_countEq_sublist hh l₂
    have hsubsym : List.Sublist
        (m :: List.replicate (l₂.countP (fun x => decide (x = hh))) hh)
        (l₁ ++ m :: l₂) :=
      (hrep.cons₂ m).trans (List.sublist_append_right l₁ (m :: l₂))
    have hpwc : (m :: List.replicate (l₂.countP (fun x => decide (x = hh))) hh).Pairwise
        (fun a b => lenDescLE a b) := by
      refine List.pairwise_cons.mpr ⟨?_, ?_⟩
      · intro y hy
        have hy' := List.eq_of_mem_replicate hy
        subst hy'
        simp [lenDescLE, hlen]
      · exact List.pairwise_replicate.mpr (Or.inr (by simp [lenDescLE]))
    have hsubsort := List.sublist_mergeSort lenDescLE_trans lenDescLE_total
      hpwc hsubsym
    rw [hS] at hsubsort
    have htail : List.Sublist
        (m :: List.replicate (l₂.countP (fun x => decide (x = hh))) hh) rest := by
      cases hsubsort with
      | cons _ htail => exact htail
      | cons₂ _ _ => exact absurd rfl (Ne.symm heq)
    have hcount1 : l₂.countP (fun x => decide (x = hh)) ≤
        rest.countP (fun x => decide (x = hh)) := by
      have hcle := htail.countP_le (fun x => decide (x = hh))
      rw [List.countP_cons, countEq_replicate_self] at hcle
      simpa [hmne] using hcle
    have h0 : l₁.countP (fun x => decide (x = hh)) = 0 :=
      List.countP_eq_zero.mpr (fun a ha => by
        simp only [decide_eq_true_eq]
        intro he
        exact hh_not_l₁ (he ▸ ha))
    have hcountSort := hperm.countP_eq (fun x => decide (x = hh))
    rw [hS] at hcountSort
    simp [List.countP_cons, List.countP_append, h0, hmne] at hcountSort
    omega

/-- Witness for `selectSymbol_rule`: the TBA rule applied after one
non-TBA symbol, and the longest-with-earliest-tie rule on
`[['a'], ['b','c'], ['d','e']]` where the first longest symbol wins. -/
theorem selectSymbol_rule_witness :
    ((∀ x ∈ [['z']], tbaTest (jsTrim x) = false) ∧
      tbaTest (jsTrim "TBA7".data) = true ∧
      selectSymbol ([['z']] ++ "TBA7".data :: []) = some "TBA7".data) ∧
    ((∀ x ∈ [['a']] ++ ['b', 'c'] :: [['d', 'e']], tbaTest (jsTrim x) = false) ∧
      (∀ x ∈ [['a']], x.length < (['b', 'c'] : List Char).length) ∧
      (∀ x ∈ [['d', 'e']], x.length ≤ (['b', 'c'] : List Char).length) ∧
      selectSymbol ([['a']] ++ ['b', 'c'] :: [['d', 'e']]) = some ['b', 'c']) :=
  ⟨⟨by decide, by decide,
    selectSymbol_rule.1 [['z']] [] "TBA7".data (by decide) (by decide)⟩,
   ⟨by decide, by decide, by decide,
    selectSymbol_rule.2.1 [['a']] [['d', 'e']] ['b', 'c']
      (by decide) (by decide) (by decide)⟩⟩

/-- **C3 (counterexample).** The claim says the native backend is tried
first on *each* variant's surface, the fallback only when native yields
nothing on it.  Concretely: with a native backend that fails on the raw
image but would return a symbol on variant 1's surface, and a fallback
that always fails, the pipeline still runs the fallback on variant 1,
never invokes the native backend on variant 1, and ends with no result. -/
theorem decodeFromFile_per_variant_native_counterexample :
    selectNativeText ((fun i => if i = 1 then [['T', 'B', 'A', '1']] else [])
        1) ≠ none ∧
      (⟨.zxing, 1, some baselineHints⟩ : Attempt) ∈
        (decodeFromFileModel true
          (fun i => if i = 1 then [['T', 'B', 'A', '1']] else [])
          (fun _ _ => none)).2 ∧
      (⟨.native, 1, none⟩ : Attempt) ∉
        (decodeFromFileModel true
          (fun i => if i = 1 then [['T', 'B', 'A', '1']] else [])
          (fun _ _ => none)).2 ∧
      (decodeFromFileModel true
          (fun i => if i = 1 then [['T', 'B', 'A', '1']] else [])
          (fun _ _ => none)).1 = none := by
  have hnat : selectNativeText ([] : List (List Char)) = none := by
    simp [selectNativeText, selectSymbol, List.find?]
  refine ⟨by decide, ?_, ?_, ?_⟩ <;>
    simp [decodeFromFileModel, hnat, zxingLoop, numVariants]

/-- **C3 (amended).** In file-decode mode the native backend is consulted
exactly once, on the raw image (variant 0's surface), before the variant
loop; when it yields a result the fallback never runs.  Otherwise the
orchestrator walks the variant list in order trying the fallback with the
baseline hint profile, retrying exactly once per variant with the
permissive profile only after the baseline attempt failed, and stops at
the first success: later variants are never attempted. -/
theorem decodeFromFile_pipeline_rule :
    (∀ (native : Nat → List (List Char)) (zx : Hints → Nat → Option (List Char))
        (t : List Char), selectNativeText (native 0) = some t →
        decodeFromFileModel true native zx = (some t, [⟨.native, 0, none⟩])) ∧
    (∀ (native : Nat → List (List Char)) (zx : Hints → Nat → Option (List Char)),
        selectNativeText (native 0) = none →
        decodeFromFileModel true native zx =
          ((zxingLoop zx 0 numVariants).1,
            ⟨.native, 0, none⟩ :: (zxingLoop zx 0 numVariants).2)) ∧
    (∀ (zx : Hints → Nat → Option (List Char)) (i fuel : Nat) (a : Attempt),
        a ∈ (zxingLoop zx i fuel).2 →
        a.backend = .zxing ∧ i ≤ a.variantIdx ∧ a.variantIdx < i + fuel ∧
          (a.hints = some permissiveHints →
            zx baselineHints a.variantIdx = none)) ∧
    (∀ (zx : Hints → Nat → Option (List Char)) (i fuel j : Nat) (r : List Char),
        i ≤ j → j < i + fuel →
        (∀ j', i ≤ j' → j' < j →
          zx baselineHints j' = none ∧ zx permissiveHints j' = none) →
        (zx baselineHints j = some r ∨
          (zx baselineHints j = none ∧ zx permissiveHints j = some r)) →
        (zxingLoop zx i fuel).1 = some r ∧
          ∀ a ∈ (zxingLoop zx i fuel).2, a.variantIdx ≤ j) := by
  refine ⟨?_, ?_, ?_, ?_⟩
  · intro native zx t h
    simp [decodeFromFileModel, h]
  · intro native zx h
    rcases hzz : zxingLoop zx 0 numVariants with ⟨res, tr⟩
    simp [decodeFromFileModel, h, hzz]
  · intro zx i fuel
    induction fuel generalizing i with
    | zero => intro a ha; simp [zxingLoop] at ha
    | succ fuel ih =>
        intro a ha
        simp only [zxingLoop] at ha
        cases hbase : zx baselineHints i with
        | some r =>
            rw [hbase] at ha
            simp at ha
            subst ha
            refine ⟨rfl, le_rfl, by show i < i + (fuel + 1); omega, ?_⟩
            intro habs
            simp at habs
            exact absurd habs (by decide)
        | none =>
            rw [hbase] at ha
            cases hperm : zx permissiveHints i with
            | some r =>
                rw [hperm] at ha
                simp at ha
                rcases ha with ha | ha <;> subst ha
                · refine ⟨rfl, le_rfl, by show i < i + (fuel + 1); omega, ?_⟩
                  intro habs
                  simp at habs
                  exact absurd habs (by decide)
                · exact ⟨rfl, le_rfl, by show i < i + (fuel + 1); omega,
                    fun _ => hbase⟩
            | none =>
                rw [hperm] at ha
                rcases hzz : zxingLoop zx (i + 1) fuel with ⟨res, tr⟩
                rw [hzz] at ha
                simp at ha
                rcases ha with ha | ha | ha
                · subst ha
                  refine ⟨rfl, le_rfl, by show i < i + (fuel + 1); omega, ?_⟩
                  intro habs
                  simp at habs
                  exact absurd habs (by decide)
                · subst ha
                  exact ⟨rfl, le_rfl, by show i < i + (fuel + 1); omega,
                    fun _ => hbase⟩
                · obtain ⟨hb, h1, h2, h3⟩ := ih (i + 1) a (by rw [hzz]; exact ha)
                  exact ⟨hb, by omega, by omega, h3⟩
  · intro zx i fuel j r hij hjf hprior hhit
    induction fuel generalizing i with
    | zero => omega
    | succ fuel ih =>
        by_cases hji : j = i
        · subst hji
          rcases hhit with hhit | ⟨hbase, hperm⟩
          · simp [zxingLoop, hhit]
          · simp [zxingLoop, hbase, hperm]
        · have hlt : i < j := by omega
          have hi := hprior i le_rfl hlt
          rcases hzz : zxingLoop zx (i + 1) fuel with ⟨res, tr⟩
          have hrec := ih (i + 1) (by omega) (by omega)
            (fun j' h1 h2 => hprior j' (by omega) h2)
          rw [hzz] at hrec
          simp only [zxingLoop, hi.1, hi.2, hzz]
          refine ⟨hrec.1, ?_⟩
          intro a ha
          simp at ha
          rcases ha with ha | ha | ha
          · subst ha; show i ≤ j; omega
          · subst ha; show i ≤ j; omega
          · exact hrec.2 a ha

/-- Witness for `decodeFromFile_pipeline_rule`: each conjunct applied at a
concrete backend configuration. -/
theorem decodeFromFile_pipeline_rule_witness :
    (selectNativeText ((fun _ => [['T', 'B', 'A', '1']]) 0) =
        some ['T', 'B', 'A', '1'] ∧
      decodeFromFileModel true (fun _ => [['T', 'B', 'A', '1']])
          (fun _ _ => none) =
        (some ['T', 'B', 'A', '1'], [⟨.native, 0, none⟩])) ∧
    (selectNativeText ((fun _ => ([] : List (List Char))) 0) = none ∧
      decodeFromFileModel true (fun _ => []) (fun _ _ => some ['r']) =
        ((zxingLoop (fun _ _ => some ['r']) 0 numVariants).1,
          ⟨.native, 0, none⟩ ::
            (zxingLoop (fun _ _ => some ['r']) 0 numVariants).2)) ∧
    ((⟨.zxing, 1, some permissiveHints⟩ : Attempt) ∈
        (zxingLoop (fun _ _ => none) 0 2).2 ∧
      ((⟨.zxing, 1, some permissiveHints⟩ : Attempt).backend = .zxing ∧
        0 ≤ (⟨.zxing, 1, some permissiveHints⟩ : Attempt).variantIdx ∧
        (⟨.zxing, 1, some permissiveHints⟩ : Attempt).variantIdx < 0 + 2 ∧
        ((⟨.zxing, 1, some permissiveHints⟩ : Attempt).hints =
            some permissiveHints →
          (fun (_ : Hints) (_ : Nat) => (none : Option (List Char)))
              baselineHints
              (⟨.zxing, 1, some permissiveHints⟩ : Attempt).variantIdx =
            none))) ∧
    ((zxingLoop (fun _ _ => some ['r']) 0 numVariants).1 = some ['r'] ∧
      ∀ a ∈ (zxingLoop (fun _ _ => some ['r']) 0 numVariants).2,
        a.variantIdx ≤ 0) :=
  ⟨⟨by decide,
    decodeFromFile_pipeline_rule.1 (fun _ => [['T', 'B', 'A', '1']])
      (fun _ _ => none) ['T', 'B', 'A', '1'] (by decide)⟩,
   ⟨by simp [selectNativeText, selectSymbol, List.find?],
    decodeFromFile_pipeline_rule.2.1 (fun _ => []) (fun _ _ => some ['r'])
      (by simp [selectNativeText, selectSymbol, List.find?])⟩,
   ⟨by decide,
    decodeFromFile_pipeline_rule.2.2.1 (fun _ _ => none) 0 2
      ⟨.zxing, 1, some permissiveHints⟩ (by decide)⟩,
   decodeFromFile_pipeline_rule.2.2.2 (fun _ _ => some ['r']) 0 numVariants 0
      ['r'] (by decide) (by decide) (fun j' h1 h2 => absurd h2 (by omega))
      (Or.inl rfl)⟩

/-- The row accumulator holds a prefix sum of the row's luminances. -/
theorem rowSumAcc_eq_sum (L : Nat → Nat → ℚ) (y : Nat) :
    ∀ x, rowSumAcc L y x = ∑ c ∈ Finset.range x, L c y := by
  intro x
  induction x with
  | zero => simp [rowSumAcc]
  | succ x ih => rw [rowSumAcc, ih, Finset.sum_range_succ]

/-- The integral image holds the rectangle sums `[0,x) × [0,y)`. -/
theorem integralImg_eq_sum (L : Nat → Nat → ℚ) :
    ∀ y x, integralImg L y x = ∑ r ∈ Finset.range y, ∑ c ∈ Finset.range x, L c r := by
  intro y
  induction y with
  | zero => intro x; simp [integralImg]
  | succ y ih =>
      intro x
      cases x with
      | zero => simp [integralImg]
      | succ x =>
          rw [integralImg, ih, rowSumAcc_eq_sum]
          exact (Finset.sum_range_succ
            (fun r => ∑ c ∈ Finset.range (x + 1), L c r) y).symm

/-- The `D - B - C + A` lookup equals the direct rectangle sum. -/
theorem areaSum_eq_sum (L : Nat → Nat → ℚ) (y1 y2 x1 x2 : Nat)
    (hy : y1 ≤ y2 + 1) (hx : x1 ≤ x2 + 1) :
    areaSum L y1 y2 x1 x2 =
      ∑ r ∈ Finset.Icc y1 y2, ∑ c ∈ Finset.Icc x1 x2, L c r := by
  have hIccy : Finset.Icc y1 y2 = Finset.Ico y1 (y2 + 1) :=
    (Nat.Ico_succ_right y1 y2).symm
  have hIccx : Finset.Icc x1 x2 = Finset.Ico x1 (x2 + 1) :=
    (Nat.Ico_succ_right x1 x2).symm
  rw [hIccy]
  have hinner : ∀ r, ∑ c ∈ Finset.Icc x1 x2, L c r =
      (∑ c ∈ Finset.range (x2 + 1), L c r) - ∑ c ∈ Finset.range x1, L c r := by
    intro r
    rw [hIccx, Finset.sum_Ico_eq_sub _ hx]
  calc areaSum L y1 y2 x1 x2
      = (∑ r ∈ Finset.range (y2 + 1), ∑ c ∈ Finset.range (x2 + 1), L c r)
          - (∑ r ∈ Finset.range y1, ∑ c ∈ Finset.range (x2 + 1), L c r)
          - ((∑ r ∈ Finset.range (y2 + 1), ∑ c ∈ Finset.range x1, L c r)
            - ∑ r ∈ Finset.range y1, ∑ c ∈ Finset.range x1, L c r) := by
        rw [areaSum, integralImg_eq_sum, integralImg_eq_sum, integralImg_eq_sum,
          integralImg_eq_sum]
        ring
    _ = (∑ r ∈ Finset.Ico y1 (y2 + 1), ∑ c ∈ Finset.range (x2 + 1), L c r)
          - ∑ r ∈ Finset.Ico y1 (y2 + 1), ∑ c ∈ Finset.range x1, L c r := by
        rw [Finset.sum_Ico_eq_sub _ hy, Finset.sum_Ico_eq_sub _ hy]
    _ = ∑ r ∈ Finset.Ico y1 (y2 + 1), ∑ c ∈ Finset.Icc x1 x2, L c r := by
        rw [← Finset.sum_sub_distrib]
        exact Finset.sum_congr rfl (fun r _ => (hinner r).symm)

/-- **C7.** For every surface (given by its luminance plane) and parameters,
the integral-image adaptive threshold produces, at every in-bounds pixel,
exactly the same output as the brute-force windowed-mean computation (the
arithmetic is modelled exactly over ℚ, so the floating-point tolerance of
the claim is met with exact equality). -/
theorem adaptiveThreshold_eq_bruteforce (L : Nat → Nat → ℚ) (w h ws : Nat)
    (C : ℚ) (x y : Nat) (hx : x < w) (hy : y < h) :
    adaptivePixel L w h ws C x y = bruteAdaptivePixel L w h ws C x y := by
  have hy2 : y - ws ≤ min (h - 1) (y + ws) + 1 := by omega
  have hx2 : x - ws ≤ min (w - 1) (x + ws) + 1 := by omega
  rw [adaptivePixel, bruteAdaptivePixel, areaSum_eq_sum L _ _ _ _ hy2 hx2]

/-- Witness for `adaptiveThreshold_eq_bruteforce` on a 3×3 surface with a
luminance gradient, window half-width 1, C = 1, at pixel (1, 1). -/
theorem adaptiveThreshold_eq_bruteforce_witness :
    (1 < 3 ∧ 1 < 3) ∧
      adaptivePixel (fun x y => (x : ℚ) + 2 * y) 3 3 1 1 1 1 =
        bruteAdaptivePixel (fun x y => (x : ℚ) + 2 * y) 3 3 1 1 1 1 :=
  ⟨⟨by decide, by decide⟩,
   adaptiveThreshold_eq_bruteforce (fun x y => (x : ℚ) + 2 * y) 3 3 1 1 1 1
     (by decide) (by decide)⟩

/-- Window sums as interval sums. -/
theorem windowSum_eq_Ico (score : Nat → ℚ) (wh s : Nat) :
    windowSum score wh s = ∑ i ∈ Finset.Ico s (s + wh), score i := by
  rw [windowSum, Finset.sum_Ico_eq_sum_range]
  simp

/-- Invariant carried by the sliding-window fold of the band detector
after processing rows `0 … k-1`. -/
def bandInv (score : Nat → ℚ) (wh k : Nat) (acc : BandAcc) : Prop :=
  acc.running = ∑ i ∈ Finset.Ico (k - wh) k, score i ∧
  (k < wh → acc.bestSum = -1 ∧ acc.bestY = 0) ∧
  (wh ≤ k →
    acc.bestY + wh ≤ k ∧
    acc.bestSum = windowSum score wh acc.bestY ∧
    (∀ s, s + wh ≤ k → windowSum score wh s ≤ acc.bestSum) ∧
    (∀ s, s + wh ≤ k → windowSum score wh s = acc.bestSum → acc.bestY ≤ s))

/-- One loop iteration preserves the invariant. -/
theorem bandStep_inv (score : Nat → ℚ) (wh : Nat) (hwh : 1 ≤ wh)
    (hnn : ∀ i, 0 ≤ score i) (k : Nat) (acc : BandAcc)
    (h : bandInv score wh k acc) :
    bandInv score wh (k + 1) (bandStep score wh acc k) := by
  obtain ⟨hrun, hsmall, hbig⟩ := h
  have hr1 : acc.running + score k = ∑ i ∈ Finset.Ico (k - wh) (k + 1), score i := by
    rw [hrun, Finset.sum_Ico_succ_top (by omega)]
  have hr2 : (if wh ≤ k then acc.running + score k - score (k - wh)
      else acc.running + score k) =
      ∑ i ∈ Finset.Ico (k + 1 - wh) (k + 1), score i := by
    by_cases hk : wh ≤ k
    · rw [if_pos hk, hr1,
        Finset.sum_eq_sum_Ico_succ_bot (show k - wh < k + 1 by omega)]
      have : k - wh + 1 = k + 1 - wh := by omega
      rw [this]
      ring
    · rw [if_neg hk, hr1]
      have h1 : k - wh = 0 := by omega
      have h2 : k + 1 - wh = 0 := by omega
      rw [h1, h2]
  by_cases hfull : wh - 1 ≤ k
  · -- a full window ends at row k
    have hs1 : k - (wh - 1) = k + 1 - wh := by omega
    have hswin : (k + 1 - wh) + wh = k + 1 := by omega
    have hr2win : (if wh ≤ k then acc.running + score k - score (k - wh)
        else acc.running + score k) = windowSum score wh (k + 1 - wh) := by
      rw [hr2, windowSum_eq_Ico, hswin]
    by_cases hcmp : acc.bestSum < (if wh ≤ k then
        acc.running + score k - score (k - wh) else acc.running + score k)
    · -- new best accepted
      have hstep : bandStep score wh acc k =
          ⟨(if wh ≤ k then acc.running + score k - score (k - wh)
            else acc.running + score k),
           (if wh ≤ k then acc.running + score k - score (k - wh)
            else acc.running + score k), k - (wh - 1)⟩ := by
        rw [bandStep]
        simp only [if_pos hfull, if_pos hcmp]
      rw [hstep]
      refine ⟨hr2, by omega, fun _ => ?_⟩
      refine ⟨by simp [hs1]; omega, by simp [hs1, hr2win], ?_, ?_⟩
      · intro s hs
        simp only [hs1]
        rcases Nat.lt_or_ge (s + wh) (k + 1) with hlt | hge
        · have hsk : s + wh ≤ k := by omega
          by_cases hk : wh ≤ k
          · have := (hbig hk).2.2.1 s hsk
            have hbs := (hbig hk).2.1
            rw [hr2win]
            calc windowSum score wh s ≤ acc.bestSum := this
              _ ≤ windowSum score wh (k + 1 - wh) := by
                  rw [← hr2win]; exact le_of_lt hcmp
          · omega
        · have hseq : s = k + 1 - wh := by omega
          rw [hseq, hr2win]
      · intro s hs _
        simp only [hs1]
        rcases Nat.lt_or_ge (s + wh) (k + 1) with hlt | hge
        · have hsk : s + wh ≤ k := by omega
          by_cases hk : wh ≤ k
          · exfalso
            have hle1 := (hbig hk).2.2.1 s hsk
            -- windowSum s ≤ old best < r2 = new best = windowSum s, contradiction
            rename_i heqs
            rw [hs1] at heqs
            rw [hr2win] at hcmp
            simp only [hr2win] at heqs
            rw [heqs] at hle1
            exact absurd (lt_of_le_of_lt hle1 hcmp) (lt_irrefl _)
          · omega
        · omega
    · -- previous best kept
      have hstep : bandStep score wh acc k =
          ⟨(if wh ≤ k then acc.running + score k - score (k - wh)
            else acc.running + score k), acc.bestSum, acc.bestY⟩ := by
        rw [bandStep]
        simp only [if_pos hfull, if_neg hcmp]
      rw [hstep]
      have hk : wh ≤ k := by
        -- if k + 1 = wh, the first full window always beats the initial -1
        by_contra hknot
        have hkeq : k + 1 = wh := by omega
        have hbs := (hsmall (by omega)).1
        have : (0 : ℚ) ≤ windowSum score wh (k + 1 - wh) :=
          Finset.sum_nonneg (fun i _ => hnn _)
        rw [← hr2win] at this
        rw [hbs] at hcmp
        exact hcmp (lt_of_lt_of_le (by norm_num) this)
      obtain ⟨hby, hbs, hmax, htie⟩ := hbig hk
      refine ⟨hr2, by omega, fun _ => ?_⟩
      refine ⟨by show acc.bestY + wh ≤ k + 1; omega, hbs, ?_, ?_⟩
      · intro s hs
        rcases Nat.lt_or_ge (s + wh) (k + 1) with hlt | hge
        · exact hmax s (by omega)
        · have hseq : s = k + 1 - wh := by omega
          rw [hseq, ← hr2win]
          exact le_of_not_lt hcmp
      · intro s hs heqs
        rcases Nat.lt_or_ge (s + wh) (k + 1) with hlt | hge
        · exact htie s (by omega) heqs
        · have hseq : s = k + 1 - wh := by omega
          show acc.bestY ≤ s
          omega
  · -- no full window yet
    have hstep : bandStep score wh acc k =
        ⟨(if wh ≤ k then acc.running + score k - score (k - wh)
          else acc.running + score k), acc.bestSum, acc.bestY⟩ := by
      rw [bandStep]
      simp only [if_neg hfull]
    rw [hstep]
    exact ⟨hr2, fun _ => hsmall (by omega), fun hcontra => absurd hcontra (by omega)⟩

/-- The invariant holds after the whole fold. -/
theorem detectBand_inv (score : Nat → ℚ) (wh : Nat) (hwh : 1 ≤ wh)
    (hnn : ∀ i, 0 ≤ score i) :
    ∀ h, bandInv score wh h (detectBand score h wh) := by
  intro h
  induction h with
  | zero =>
      refine ⟨by simp [detectBand], fun _ => ⟨rfl, rfl⟩, fun hcontra => ?_⟩
      omega
  | succ h ih =>
      have hstep : detectBand score (h + 1) wh =
          bandStep score wh (detectBand score h wh) h := by
        rw [detectBand, detectBand, List.range_succ, List.foldl_append,
          List.foldl_cons, List.foldl_nil]
      rw [hstep]
      exact bandStep_inv score wh hwh hnn h _ ih

/-- **C8.** The band detector computes per-row edge energy as the sum of
absolute adjacent-pixel luminance differences, slides a window of height
`max(8, floor(H * bandFraction))` down the image, and returns a start row
achieving the maximum aggregate window energy, with ties resolved in
favor of the earliest start (the comparison is strict `>`). -/
theorem bandDetector_earliest_max (L : Nat → Nat → ℚ) (w h : Nat) (f : ℚ)
    (hle : bandWindowH h f ≤ h) :
    bandBestY L w h f + bandWindowH h f ≤ h ∧
    (∀ s, s + bandWindowH h f ≤ h →
      windowSum (rowScore L w) (bandWindowH h f) s ≤
        windowSum (rowScore L w) (bandWindowH h f) (bandBestY L w h f)) ∧
    (∀ s, s + bandWindowH h f ≤ h →
      windowSum (rowScore L w) (bandWindowH h f) s =
        windowSum (rowScore L w) (bandWindowH h f) (bandBestY L w h f) →
      bandBestY L w h f ≤ s) := by
  have hwh : 1 ≤ bandWindowH h f :=
    le_trans (by norm_num) (le_max_left 8 (Int.toNat ⌊(h : ℚ) * f⌋))
  have hnn : ∀ i, 0 ≤ rowScore L w i :=
    fun i => Finset.sum_nonneg (fun _ _ => abs_nonneg _)
  obtain ⟨-, -, hge⟩ := detectBand_inv (rowScore L w) (bandWindowH h f) hwh hnn h
  obtain ⟨h1, h2, h3, h4⟩ := hge hle
  refine ⟨h1, ?_, ?_⟩
  · intro s hs
    rw [bandBestY, ← h2]
    exact h3 s hs
  · intro s hs heq
    rw [bandBestY, ← h2] at heq
    exact h4 s hs heq

/-- Witness for `bandDetector_earliest_max` on a 2×9 surface with
`bandFraction = 1/4` (window height `max 8 2 = 8 ≤ 9`). -/
theorem bandDetector_earliest_max_witness :
    bandWindowH 9 (1 / 4) ≤ 9 ∧
      bandBestY (fun x y => (x : ℚ) * y) 2 9 (1 / 4) + bandWindowH 9 (1 / 4) ≤ 9 :=
  ⟨by norm_num [bandWindowH],
   (bandDetector_earliest_max (fun x y => (x : ℚ) * y) 2 9 (1 / 4)
     (by norm_num [bandWindowH])).1⟩

/-- What a successful `takeDigits` tells us about its input and output. -/
theorem takeDigits_spec : ∀ (k : Nat) (s d r : List Char),
    takeDigits k s = some (d, r) →
    s = d ++ r ∧ d.length = k ∧ d.all isDigitChar = true
  | 0, s, d, r, h => by
      rw [takeDigits] at h
      simp only [Option.some_inj, Prod.mk.injEq] at h
      obtain ⟨hd, hr⟩ := h
      subst hd
      subst hr
      simp
  | _ + 1, [], _, _, h => by rw [takeDigits] at h; simp at h
  | k + 1, c :: s, d, r, h => by
      rw [takeDigits] at h
      by_cases hc : isDigitChar c
      · rw [if_pos hc] at h
        cases ht : takeDigits k s with
        | none => rw [ht] at h; simp at h
        | some p =>
            obtain ⟨g, r'⟩ := p
            rw [ht] at h
            simp only [Option.map_some', Option.some_inj, Prod.mk.injEq] at h
            obtain ⟨hd, hr⟩ := h
            obtain ⟨hsp, hlen, hall⟩ := takeDigits_spec k s g r' ht
            subst hd
            subst hr
            subst hsp
            simp [hlen, hall, hc]
      · rw [if_neg hc] at h
        simp at h

/-- What a successful `takeWS1` tells us about its input and output. -/
theorem takeWS1_spec : ∀ (s w r : List Char), takeWS1 s = some (w, r) →
    s = w ++ r ∧ w ≠ [] ∧ w.all isWSChar = true
  | [], _, _, h => by rw [takeWS1] at h; simp at h
  | c :: s, w, r, h => by
      rw [takeWS1] at h
      by_cases hc : isWSChar c
      · rw [if_pos hc] at h
        simp only [Option.some_inj] at h
        cases ht : takeWS1 s with
        | none =>
            rw [ht] at h
            obtain ⟨hw, hr⟩ := Prod.mk.injEq .. ▸ h.symm
            subst hw
            subst hr
            simp [hc]
        | some p =>
            obtain ⟨w', r'⟩ := p
            rw [ht] at h
            obtain ⟨hw, hr⟩ := Prod.mk.injEq .. ▸ h.symm
            obtain ⟨hsp, hne, hall⟩ := takeWS1_spec s w' r' ht
            subst hw
            subst hr
            subst hsp
            simp [hc, hall]
      · rw [if_neg hc] at h
        simp at h

/-- Shape of a pass-3 result: six groups of four digits and one group of two
digits, separated by nonempty whitespace runs. -/
def spacedShape (n : List Char) : Prop :=
  ∃ g1 w1 g2 w2 g3 w3 g4 w4 g5 w5 g6 w6 g7 : List Char,
    n = g1 ++ w1 ++ g2 ++ w2 ++ g3 ++ w3 ++ g4 ++ w4 ++ g5 ++ w5 ++ g6 ++ w6 ++ g7 ∧
    g1.length = 4 ∧ g2.length = 4 ∧ g3.length = 4 ∧ g4.length = 4 ∧
    g5.length = 4 ∧ g6.length = 4 ∧ g7.length = 2 ∧
    (g1 ++ g2 ++ g3 ++ g4 ++ g5 ++ g6 ++ g7).all isDigitChar = true ∧
    w1 ≠ [] ∧ w2 ≠ [] ∧ w3 ≠ [] ∧ w4 ≠ [] ∧ w5 ≠ [] ∧ w6 ≠ [] ∧
    (w1 ++ w2 ++ w3 ++ w4 ++ w5 ++ w6).all isWSChar = true

/-- Inversion of one monadic bind over an optional pair. -/
theorem bind_pair_inv {γ : Type} {x : Option (List Char × List Char)}
    {f : List Char × List Char → Option γ} {b : γ}
    (h : (x >>= f) = some b) : ∃ p, x = some p ∧ f p = some b := by
  cases x with
  | none => exact absurd h (by simp)
  | some p => exact ⟨p, rfl, by simpa using h⟩

/-- A successful spaced-USPS parse yields a number of the spaced shape. -/
theorem uspsSpacedParse_inv (s n r : List Char)
    (h : uspsSpacedParse s = some (n, r)) : spacedShape n := by
  rw [uspsSpacedParse] at h
  obtain ⟨⟨g1, r1⟩, h1, h⟩ := bind_pair_inv h
  obtain ⟨⟨w1, r1x⟩, hw1, h⟩ := bind_pair_inv h
  obtain ⟨⟨g2, r2⟩, h2, h⟩ := bind_pair_inv h
  obtain ⟨⟨w2, r2x⟩, hw2, h⟩ := bind_pair_inv h
  obtain ⟨⟨g3, r3⟩, h3, h⟩ := bind_pair_inv h
  obtain ⟨⟨w3, r3x⟩, hw3, h⟩ := bind_pair_inv h
  obtain ⟨⟨g4, r4⟩, h4, h⟩ := bind_pair_inv h
  obtain ⟨⟨w4, r4x⟩, hw4, h⟩ := bind_pair_inv h
  obtain ⟨⟨g5, r5⟩, h5, h⟩ := bind_pair_inv h
  obtain ⟨⟨w5, r5x⟩, hw5, h⟩ := bind_pair_inv h
  obtain ⟨⟨g6, r6⟩, h6, h⟩ := bind_pair_inv h
  obtain ⟨⟨w6, r6x⟩, hw6, h⟩ := bind_pair_inv h
  obtain ⟨⟨g7, r7⟩, h7, h⟩ := bind_pair_inv h
  simp only [Option.some_inj, Prod.mk.injEq] at h
  obtain ⟨hn, hr⟩ := h
  obtain ⟨e1, l1, a1⟩ := takeDigits_spec 4 _ _ _ h1
  obtain ⟨e2, l2, a2⟩ := takeDigits_spec 4 _ _ _ h2
  obtain ⟨e3, l3, a3⟩ := takeDigits_spec 4 _ _ _ h3
  obtain ⟨e4, l4, a4⟩ := takeDigits_spec 4 _ _ _ h4
  obtain ⟨e5, l5, a5⟩ := takeDigits_spec 4 _ _ _ h5
  obtain ⟨e6, l6, a6⟩ := takeDigits_spec 4 _ _ _ h6
  obtain ⟨e7, l7, a7⟩ := takeDigits_spec 2 _ _ _ h7
  obtain ⟨f1, n1, b1⟩ := takeWS1_spec _ _ _ hw1
  obtain ⟨f2, n2, b2⟩ := takeWS1_spec _ _ _ hw2
  obtain ⟨f3, n3, b3⟩ := takeWS1_spec _ _ _ hw3
  obtain ⟨f4, n4, b4⟩ := takeWS1_spec _ _ _ hw4
  obtain ⟨f5, n5, b5⟩ := takeWS1_spec _ _ _ hw5
  obtain ⟨f6, n6, b6⟩ := takeWS1_spec _ _ _ hw6
  exact ⟨g1, w1, g2, w2, g3, w3, g4, w4, g5, w5, g6, w6, g7, hn.symm,
    l1, l2, l3, l4, l5, l6, l7,
    by simp [List.all_append, a1, a2, a3, a4, a5, a6, a7],
    n1, n2, n3, n4, n5, n6,
    by simp [List.all_append, b1, b2, b3, b4, b5, b6]⟩

/-- What a successful `longNumParse` tells us about the match. -/
theorem longNumParse_spec (s n r : List Char)
    (h : longNumParse s = some (n, r)) :
    n.all isDigitChar = true ∧ 20 ≤ n.length ∧ n.length ≤ 22 := by
  rw [longNumParse] at h
  by_cases h20 : 20 ≤ (s.takeWhile isDigitChar).length
  · rw [if_pos h20] at h
    simp only [Option.some_inj, Prod.mk.injEq] at h
    obtain ⟨hn, -⟩ := h
    subst hn
    refine ⟨?_, ?_, ?_⟩
    · rw [List.all_eq_true]
      intro x hx
      exact List.mem_takeWhile_imp ((List.take_subset 22 _) hx)
    · rw [List.length_take]
      omega
    · rw [List.length_take]
      omega
  · rw [if_neg h20] at h
    simp at h

/-- A successful leftmost search comes from a successful parse at some
start position. -/
theorem searchAt_some (f : List Char → Option (List Char × List Char)) :
    ∀ (t n : List Char), searchAt f t = some n →
      ∃ s r, f s = some (n, r)
  | [], n, h => by
      rw [searchAt] at h
      cases hf : f [] with
      | none => rw [hf] at h; simp at h
      | some p =>
          obtain ⟨a, b⟩ := p
          rw [hf] at h
          simp only [Option.map_some', Option.some_inj] at h
          exact ⟨[], b, by rw [hf, h]⟩
  | c :: s, n, h => by
      rw [searchAt] at h
      cases hf : f (c :: s) with
      | none => rw [hf] at h; exact searchAt_some f s n h
      | some p =>
          obtain ⟨a, b⟩ := p
          rw [hf] at h
          simp only [Option.some_inj] at h
          exact ⟨c :: s, b, by rw [hf, h]⟩

/-- A table hit returns the whole matched string with its carrier's
pattern satisfied. -/
theorem tableMatch_number (s : List Char) (m : TrackingMatch)
    (h : tableMatch s = some m) :
    m.number = s ∧ carrierPattern m.carrier s = true := by
  rw [tableMatch] at h
  cases hf : carrierOrder.find? (fun c => carrierPattern c s) with
  | none => rw [hf] at h; simp at h
  | some c =>
      rw [hf] at h
      simp only [Option.map_some', Option.some_inj] at h
      subst h
      exact ⟨rfl, by simpa using List.find?_some hf⟩

/-- Which pass produced a successful extraction (shared case analysis). -/
theorem pickTracking_cases (t : List Char) (m : TrackingMatch)
    (hm : pickTracking t = some m) :
    (tableMatch t = some m ∧ m.number = t) ∨
    (tableMatch t = none ∧ tableMatch (stripWS t) = some m ∧
      m.number = stripWS t) ∨
    (tableMatch t = none ∧ tableMatch (stripWS t) = none ∧
      searchAt uspsSpacedParse t = some m.number ∧ m.carrier = .USPS) ∨
    (tableMatch t = none ∧ tableMatch (stripWS t) = none ∧
      searchAt uspsSpacedParse t = none ∧
      searchAt longNumParse t = some m.number ∧ m.carrier = .USPS) := by
  cases h1 : tableMatch t with
  | some m1 =>
      rw [pickTracking, h1] at hm
      simp only [Option.some_inj] at hm
      subst hm
      exact Or.inl ⟨rfl, (tableMatch_number t m1 h1).1⟩
  | none =>
      rw [pickTracking, h1] at hm
      cases h2 : tableMatch (stripWS t) with
      | some m2 =>
          rw [h2] at hm
          simp only [Option.some_inj] at hm
          subst hm
          exact Or.inr (Or.inl ⟨rfl, rfl, (tableMatch_number _ m2 h2).1⟩)
      | none =>
          rw [h2] at hm
          cases h3 : searchAt uspsSpacedParse t with
          | some n =>
              rw [h3] at hm
              simp only [Option.some_inj] at hm
              subst hm
              exact Or.inr (Or.inr (Or.inl ⟨rfl, rfl, rfl, rfl⟩))
          | none =>
              rw [h3] at hm
              cases h4 : searchAt longNumParse t with
              | some n =>
                  rw [h4] at hm
                  simp only [Option.some_inj] at hm
                  subst hm
                  exact Or.inr (Or.inr (Or.inr ⟨rfl, rfl, rfl, rfl, rfl⟩))
              | none => rw [h4] at hm; exact absurd hm (by simp)

/-- **C1.** The extractor evaluates the carrier table strictly in the
priority order UPS, FedEx, USPS, DHL, Amazon, OnTrac with full-string
anchor patterns, in four escalating passes — the raw text, the text with
all whitespace removed, the spaced 4-4-4-4-4-4-2 USPS heuristic anywhere
in the text, and any run of 20–22 digits anywhere in the text classified
as USPS — returning at the first pass and table entry that hits, and
returning null iff no pass matches. -/
theorem pickTracking_four_passes :
    (∀ t : List Char,
      (pickTracking t = none ↔
        tableMatch t = none ∧ tableMatch (stripWS t) = none ∧
        searchAt uspsSpacedParse t = none ∧ searchAt longNumParse t = none)) ∧
    (∀ (t : List Char) (m : TrackingMatch), pickTracking t = some m →
      (tableMatch t = some m ∧ m.number = t) ∨
      (tableMatch t = none ∧ tableMatch (stripWS t) = some m ∧
        m.number = stripWS t) ∨
      (tableMatch t = none ∧ tableMatch (stripWS t) = none ∧
        searchAt uspsSpacedParse t = some m.number ∧ m.carrier = .USPS) ∨
      (tableMatch t = none ∧ tableMatch (stripWS t) = none ∧
        searchAt uspsSpacedParse t = none ∧
        searchAt longNumParse t = some m.number ∧ m.carrier = .USPS)) ∧
    (∀ s : List Char,
      (tableMatch s = some ⟨.UPS, s⟩ ↔ upsFull s = true) ∧
      (tableMatch s = some ⟨.FedEx, s⟩ ↔
        upsFull s = false ∧ fedexFull s = true) ∧
      (tableMatch s = some ⟨.USPS, s⟩ ↔
        upsFull s = false ∧ fedexFull s = false ∧ uspsFull s = true) ∧
      (tableMatch s = some ⟨.DHL, s⟩ ↔
        upsFull s = false ∧ fedexFull s = false ∧ uspsFull s = false ∧
          dhlFull s = true) ∧
      (tableMatch s = some ⟨.Amazon, s⟩ ↔
        upsFull s = false ∧ fedexFull s = false ∧ uspsFull s = false ∧
          dhlFull s = false ∧ amazonFull s = true) ∧
      (tableMatch s = some ⟨.OnTrac, s⟩ ↔
        upsFull s = false ∧ fedexFull s = false ∧ uspsFull s = false ∧
          dhlFull s = false ∧ amazonFull s = false ∧ ontracFull s = true) ∧
      (tableMatch s = none ↔
        upsFull s = false ∧ fedexFull s = false ∧ uspsFull s = false ∧
          dhlFull s = false ∧ amazonFull s = false ∧ ontracFull s = false)) := by
  refine ⟨?_, ?_, ?_⟩
  · intro t
    cases h1 : tableMatch t <;> cases h2 : tableMatch (stripWS t) <;>
      cases h3 : searchAt uspsSpacedParse t <;>
      cases h4 : searchAt longNumParse t <;>
      simp [pickTracking, h1, h2, h3, h4]
  · exact pickTracking_cases
  · intro s
    cases hU : upsFull s <;> cases hF : fedexFull s <;>
      cases hUS : uspsFull s <;> cases hD : dhlFull s <;>
      cases hA : amazonFull s <;> cases hO : ontracFull s <;>
      simp [tableMatch, carrierOrder, List.find?, carrierPattern,
        hU, hF, hUS, hD, hA, hO]

/-- Witness for `pickTracking_four_passes`: the pass-escalation clause
applied to a concrete UPS number. -/
theorem pickTracking_four_passes_witness :
    pickTracking "1Z999AA10123456784".data =
        some ⟨.UPS, "1Z999AA10123456784".data⟩ ∧
      ((tableMatch "1Z999AA10123456784".data =
          some ⟨.UPS, "1Z999AA10123456784".data⟩ ∧
        (⟨.UPS, "1Z999AA10123456784".data⟩ : TrackingMatch).number =
          "1Z999AA10123456784".data) ∨
       (tableMatch "1Z999AA10123456784".data = none ∧
        tableMatch (stripWS "1Z999AA10123456784".data) =
          some ⟨.UPS, "1Z999AA10123456784".data⟩ ∧
        (⟨.UPS, "1Z999AA10123456784".data⟩ : TrackingMatch).number =
          stripWS "1Z999AA10123456784".data) ∨
       (tableMatch "1Z999AA10123456784".data = none ∧
        tableMatch (stripWS "1Z999AA10123456784".data) = none ∧
        searchAt uspsSpacedParse "1Z999AA10123456784".data =
          some (⟨.UPS, "1Z999AA10123456784".data⟩ : TrackingMatch).number ∧
        (⟨.UPS, "1Z999AA10123456784".data⟩ : TrackingMatch).carrier = .USPS) ∨
       (tableMatch "1Z999AA10123456784".data = none ∧
        tableMatch (stripWS "1Z999AA10123456784".data) = none ∧
        searchAt uspsSpacedParse "1Z999AA10123456784".data = none ∧
        searchAt longNumParse "1Z999AA10123456784".data =
          some (⟨.UPS, "1Z999AA10123456784".data⟩ : TrackingMatch).number ∧
        (⟨.UPS, "1Z999AA10123456784".data⟩ : TrackingMatch).carrier = .USPS)) :=
  ⟨by decide,
   pickTracking_four_passes.2.1 "1Z999AA10123456784".data
     ⟨.UPS, "1Z999AA10123456784".data⟩ (by decide)⟩

/-- **C5 (counterexample).** On the input
`"x1234  5678  9012  3456  7890  1234  56"` the extractor returns a USPS
match through pass 3 whose number contains double spaces, and that number
does not fully match the carrier table's USPS anchor pattern (whose
grouped alternative allows at most one whitespace between groups). -/
theorem pickTracking_full_match_counterexample :
    pickTracking "x1234  5678  9012  3456  7890  1234  56".data =
        some ⟨.USPS, "1234  5678  9012  3456  7890  1234  56".data⟩ ∧
      carrierPattern .USPS "1234  5678  9012  3456  7890  1234  56".data =
        false := by
  exact ⟨by decide, by decide⟩

/-- **C5 (amended).** Whenever the extractor returns a match, the number
fully matches the carrier table's anchor pattern for that carrier —
except that a pass-3 result (always carrier USPS) is only guaranteed to
have the spaced 4-4-4-4-4-4-2 shape with one-or-more-whitespace
separators, which fully matches the USPS anchor pattern only when every
separator is a single whitespace character. -/
theorem pickTracking_result_matches (t : List Char) (m : TrackingMatch)
    (h : pickTracking t = some m) :
    carrierPattern m.carrier m.number = true ∨
      (m.carrier = .USPS ∧ spacedShape m.number) := by
  rcases pickTracking_cases t m h with
    ⟨h1, hn⟩ | ⟨h1, h2, hn⟩ | ⟨h1, h2, h3, hc⟩ | ⟨h1, h2, h3, h4, hc⟩
  · left
    have := tableMatch_number t m h1
    rw [this.1]
    exact this.2
  · left
    have := tableMatch_number _ m h2
    rw [this.1]
    exact this.2
  · right
    obtain ⟨s', r', hp⟩ := searchAt_some uspsSpacedParse t m.number h3
    exact ⟨hc, uspsSpacedParse_inv s' m.number r' hp⟩
  · left
    obtain ⟨s', r', hp⟩ := searchAt_some longNumParse t m.number h4
    obtain ⟨ha, h20, h22⟩ := longNumParse_spec s' m.number r' hp
    rw [hc]
    simp only [carrierPattern, uspsFull, Bool.or_eq_true, Bool.and_eq_true,
      decide_eq_true_eq]
    exact Or.inl ⟨ha, h20, h22⟩

/-- Witness for `pickTracking_result_matches` on a DHL number. -/
theorem pickTracking_result_matches_witness :
    pickTracking "0123456789".data = some ⟨.DHL, "0123456789".data⟩ ∧
      (carrierPattern (⟨.DHL, "0123456789".data⟩ : TrackingMatch).carrier
          (⟨.DHL, "0123456789".data⟩ : TrackingMatch).number = true ∨
        ((⟨.DHL, "0123456789".data⟩ : TrackingMatch).carrier = .USPS ∧
          spacedShape (⟨.DHL, "0123456789".data⟩ : TrackingMatch).number)) :=
  ⟨by decide,
   pickTracking_result_matches "0123456789".data ⟨.DHL, "0123456789".data⟩
     (by decide)⟩

end Scanner
